import Mathlib

/-!
# AESD character driver: ring of records behind `aesd_read` / `aesd_write`

Shallow embedding of `aesd-char-driver/main.c`.

* `aesd_open`, `aesd_read`, `aesd_write` and the start-up state follow `main.c`.
* `aesd-circular-buffer.h` / `.c` are not among the sources; the three ring
  operations used by `main.c` (`aesd_circular_buffer_init`,
  `aesd_circular_buffer_add_entry`,
  `aesd_circular_buffer_find_entry_offset_for_fpos`) follow the design document
  (sections 3, 4.1 and 6), and `AESDCHAR_MAX_WRITE_OPERATIONS_SUPPORTED` is the
  number of slots of the ring, a parameter of the start-up state.

Conventions.

* A `char` is a `Nat`; the driver only moves bytes and writes one NUL (`0`).
* `size_t` / `ssize_t` counters are `Nat` / `Int`: the VFS caps `count` at
  `MAX_RW_COUNT < 2^31`, so no counter of these functions wraps.
* `buffptr = none` is the NULL pointer; `some blk` is a `kmalloc` block whose
  contents are `blk` (so `blk.length` is the size of the allocation).
* A byte that a `memcpy` reads outside the block it was given is `none` in the
  output: the model records the out-of-bounds read and invents no value for it.
-/

namespace Aesd

/-- One slot of the ring, `struct aesd_buffer_entry`: `buffptr` and `size`. -/
structure aesd_buffer_entry where
  buffptr : Option (List Nat)
  size : Nat
deriving DecidableEq

/-- The contents of a slot that holds no record: `buffptr = NULL`, `size = 0`
(what `memset` leaves at start-up, and what `aesd_read` writes after `kfree`). -/
def empty_entry : aesd_buffer_entry := { buffptr := none, size := 0 }

/-- The ring, `struct aesd_circular_buffer`: the slots (their number is
`AESDCHAR_MAX_WRITE_OPERATIONS_SUPPORTED`), the insertion index `in_offs`
(tail), the index of the oldest record `out_offs` (head) and the `full` flag. -/
structure aesd_circular_buffer where
  entry : List aesd_buffer_entry
  in_offs : Nat
  out_offs : Nat
  full : Bool
deriving DecidableEq

/-- The device, `struct aesd_dev`, reduced to the two fields `main.c` uses. -/
structure aesd_dev where
  cir_buf_ : aesd_circular_buffer
  is_open_ : Bool
deriving DecidableEq

/-- The globals of `main.c`: `aesd_device` and the mutex `aesd_lock`
(`true` = held). -/
structure aesd_state where
  aesd_device : aesd_dev
  aesd_lock : Bool
deriving DecidableEq

/-- What a call does, in program order. `find_entry`, `memcpy_out`, `kfree` and
`add_entry` are the accesses to the ring; `kmalloc` is not one. -/
inductive Event where
  | mutex_lock
  | mutex_unlock
  | find_entry (char_offset : Nat) (found : Option (Nat × Nat))
  | memcpy_out (dst slot src_off n : Nat)
  | kfree (slot : Nat)
  | kmalloc (n : Nat) (ok : Bool)
  | add_entry (e : aesd_buffer_entry)
deriving DecidableEq

/-! ## Ring operations (design document, sections 3, 4.1 and 6) -/

/-- Modelled from the spec: `aesd_circular_buffer_init` (in the absent
`aesd-circular-buffer.c`), section 6 "Startup": one empty ring, all slots
empty, head = tail = 0, full = false. `cap` is CAPACITY. -/
def aesd_circular_buffer_init (cap : Nat) : aesd_circular_buffer :=
  { entry := List.replicate cap empty_entry, in_offs := 0, out_offs := 0, full := false }

/-- Modelled from the spec: `aesd_circular_buffer_add_entry` (in the absent
`aesd-circular-buffer.c`), section 4.1 `append`. Ring not full: the record goes
into the tail slot, the tail advances modulo CAPACITY and `full` is recomputed
(the ring is full when the tail has caught up with the head). Ring full: the
record in the head slot is evicted, the head advances, the record goes into the
tail slot, the tail advances and the ring stays full. -/
def aesd_circular_buffer_add_entry (b : aesd_circular_buffer)
    (add_entry : aesd_buffer_entry) : aesd_circular_buffer :=
  let cap := b.entry.length
  if b.full then
    { entry := (b.entry.set b.out_offs empty_entry).set b.in_offs add_entry
      in_offs := (b.in_offs + 1) % cap
      out_offs := (b.out_offs + 1) % cap
      full := true }
  else
    { entry := b.entry.set b.in_offs add_entry
      in_offs := (b.in_offs + 1) % cap
      out_offs := b.out_offs
      full := decide ((b.in_offs + 1) % cap = b.out_offs) }

/-- The walk of `resolve`: `steps` slots are still to be visited, `i` have been,
`char_offset` is what is left of the logical offset once the lengths of the
visited slots are taken off. A slot of length 0 is passed over. -/
def find_entry_walk (entry : List aesd_buffer_entry) (out_offs : Nat) :
    Nat → Nat → Nat → Option (Nat × Nat)
  | 0, _, _ => none
  | steps + 1, i, char_offset =>
    let idx := (out_offs + i) % entry.length
    let sz := (entry.getD idx empty_entry).size
    if char_offset < sz then some (idx, char_offset)
    else find_entry_walk entry out_offs steps (i + 1) (char_offset - sz)

/-- Modelled from the spec: `aesd_circular_buffer_find_entry_offset_for_fpos`
(in the absent `aesd-circular-buffer.c`), section 4.1 `resolve`. The records, from
the head slot onwards in ring order (one turn of the ring; a slot without a
record has length 0 and adds nothing), are one byte stream; the result is the
slot holding the byte at `char_offset` and the offset inside that record, or
`none` when `char_offset` is at or past the end of the stream. -/
def aesd_circular_buffer_find_entry_offset_for_fpos (b : aesd_circular_buffer)
    (char_offset : Nat) : Option (Nat × Nat) :=
  find_entry_walk b.entry b.out_offs b.entry.length 0 char_offset

/-! ## `main.c` -/

/-- Start-up state, `aesd_init_module`: `memset` clears the device (so the
session is closed), then the ring is initialised; the mutex is free. -/
def aesd_init_module (cap : Nat) : aesd_state :=
  { aesd_device := { cir_buf_ := aesd_circular_buffer_init cap, is_open_ := false }
    aesd_lock := false }

/-- The `aesd_open` entry point: `-EBUSY` (`-16`) when the device is already
open, else the session is marked open and `0` is returned. -/
def aesd_open (s : aesd_state) : Int × aesd_state :=
  if s.aesd_device.is_open_ then (-16, s)
  else (0, { s with aesd_device := { s.aesd_device with is_open_ := true } })

/-- The bytes `memcpy(dst, &buffptr[src_off], n)` reads: byte `src_off + i` of
the block for `i < n`; `none` where that index is outside the block (or the
pointer is NULL). -/
def memcpy_src (buffptr : Option (List Nat)) (src_off n : Nat) : List (Option Nat) :=
  (List.range n).map (fun i => buffptr.bind (fun blk => blk.get? (src_off + i)))

/-- What `aesd_read` hands back: the return value, the bytes it has put in the
user buffer `buf[0 .. char_offset)`, the globals, the trace and the number of
times the loop body was entered. -/
structure read_result where
  retval : Int
  buf : List (Option Nat)
  state : aesd_state
  trace : List Event
  iterations : Nat
deriving DecidableEq

/-- The `while(count > char_offset)` loop of `aesd_read`. One unit of fuel is
spent on each test of the loop condition; `none` means the fuel ran out.
`buf` is the part `[0, char_offset)` of the user buffer: every `memcpy` writes
at `&buf[char_offset]`, the end of that part. -/
def aesd_read_loop : Nat → aesd_state → Nat → Nat → List (Option Nat) → List Event →
    Nat → Option read_result
  | 0, _, _, _, _, _, _ => none
  | fuel + 1, s, count, char_offset, buf, tr, it =>
    if count > char_offset then
      let b := s.aesd_device.cir_buf_
      let found := aesd_circular_buffer_find_entry_offset_for_fpos b char_offset
      match found with
      | none =>
        some { retval := (char_offset : Int)
               buf := buf
               state := { s with aesd_lock := false }
               trace := tr ++ [Event.mutex_lock, Event.find_entry char_offset none,
                               Event.mutex_unlock]
               iterations := it + 1 }
      | some (idx, offset_rtn) =>
        let rtnentry := b.entry.getD idx empty_entry
        let chunk := memcpy_src rtnentry.buffptr offset_rtn rtnentry.size
        let b1 := { b with entry := b.entry.set idx empty_entry }
        aesd_read_loop fuel
          { aesd_device := { s.aesd_device with cir_buf_ := b1 }, aesd_lock := false }
          count (char_offset + rtnentry.size) (buf ++ chunk)
          (tr ++ [Event.mutex_lock, Event.find_entry char_offset (some (idx, offset_rtn)),
                  Event.memcpy_out char_offset idx offset_rtn rtnentry.size,
                  Event.kfree idx, Event.mutex_unlock])
          (it + 1)
    else
      some { retval := (char_offset : Int), buf := buf, state := s, trace := tr,
             iterations := it }

/-- The `aesd_read` entry point: `-1` when the session is not open, else the
drain loop from `char_offset = 0`. (The statement `aesd_device.cir_buf_.out_offs;`
before the loop is an expression whose value is dropped; it does nothing.) -/
def aesd_read (fuel : Nat) (s : aesd_state) (count : Nat) : Option read_result :=
  if !s.aesd_device.is_open_ then
    some { retval := -1, buf := [], state := s, trace := [], iterations := 0 }
  else aesd_read_loop fuel s count 0 [] [] 0

/-- What `aesd_write` hands back; `retval = none` when the call does not return
(NULL dereference in the kernel). -/
structure write_result where
  retval : Option Int
  state : aesd_state
  trace : List Event
deriving DecidableEq

/-- The `aesd_write` entry point. `buf` is the `count` bytes of the caller
(`count = buf.length`); `kmalloc_ok` says whether `kmalloc` returns a block.
`-1` when the session is not open and `0` for `count = 0`, both before the
mutex is taken. Else the mutex is taken and `kmalloc(count + 1)` is called;
the code does not test its result: with a block, the payload and a NUL are
stored, the record is appended, the mutex is released and `count` returned;
with NULL, `memcpy(malloc_buf, buf, count)` writes through NULL and the call
ends there, the mutex still held. -/
def aesd_write (s : aesd_state) (buf : List Nat) (kmalloc_ok : Bool) : write_result :=
  let count := buf.length
  if !s.aesd_device.is_open_ then { retval := some (-1), state := s, trace := [] }
  else if count = 0 then { retval := some 0, state := s, trace := [] }
  else if kmalloc_ok then
    let malloc_buf := buf ++ [0]
    let entry : aesd_buffer_entry := { buffptr := some malloc_buf, size := count }
    let b := aesd_circular_buffer_add_entry s.aesd_device.cir_buf_ entry
    { retval := some (count : Int)
      state := { aesd_device := { s.aesd_device with cir_buf_ := b }, aesd_lock := false }
      trace := [Event.mutex_lock, Event.kmalloc (count + 1) true, Event.add_entry entry,
                Event.mutex_unlock] }
  else
    { retval := none
      state := { s with aesd_lock := true }
      trace := [Event.mutex_lock, Event.kmalloc (count + 1) false] }

/-! ## Observations used by the statements -/

/-- A slot is live when it holds a record, that is when its length is not 0. -/
def is_live (e : aesd_buffer_entry) : Bool := decide (0 < e.size)

/-- Number of live records of the ring. -/
def live_count (b : aesd_circular_buffer) : Nat := b.entry.countP is_live

/-- Sum of the lengths of the records of the ring. -/
def total_bytes (b : aesd_circular_buffer) : Nat := (b.entry.map (fun e => e.size)).sum

/-- The records a trace empties, as (slot, length) in program order: one per
`memcpy_out`, which `aesd_read` issues with `n = rtnentry->size` just before it
frees that slot. -/
def emptied : List Event → List (Nat × Nat)
  | [] => []
  | Event.memcpy_out _ slot _ n :: tr => (slot, n) :: emptied tr
  | _ :: tr => emptied tr

/-- The records a trace appends, in program order. -/
def appended : List Event → List aesd_buffer_entry
  | [] => []
  | Event.add_entry e :: tr => e :: appended tr
  | _ :: tr => appended tr

/-- Lock discipline of a trace, from the lock state `held`: `mutex_lock` only
when the mutex is free, `mutex_unlock` only when it is held, every access to
the ring only while it is held. `some h` gives the lock state at the end of a
trace that keeps the discipline, `none` marks a trace that breaks it. -/
def lock_discipline : Bool → List Event → Option Bool
  | held, [] => some held
  | held, Event.mutex_lock :: tr => if held then none else lock_discipline true tr
  | held, Event.mutex_unlock :: tr => if held then lock_discipline false tr else none
  | held, Event.kmalloc _ _ :: tr => lock_discipline held tr
  | held, _ :: tr => if held then lock_discipline held tr else none

/-- The state the properties start from: start-up with `cap` slots, then one
successful `aesd_open`. -/
def opened (cap : Nat) : aesd_state := (aesd_open (aesd_init_module cap)).2

/-- A call of one of the two entry points: a write of `buf` whose `kmalloc`
succeeds or not, or a read of `count` bytes. -/
inductive Op where
  | write (buf : List Nat) (kmalloc_ok : Bool)
  | read (count : Nat)
deriving DecidableEq

/-- The globals after one call. The read gets one unit of fuel per slot plus
one, which is enough for it to return. A write whose allocation fails does not
return; the globals it leaves behind are kept. -/
def step (s : aesd_state) : Op → aesd_state
  | Op.write buf kmalloc_ok => (aesd_write s buf kmalloc_ok).state
  | Op.read count =>
    match aesd_read (s.aesd_device.cir_buf_.entry.length + 1) s count with
    | some r => r.state
    | none => s

/-- The globals after a sequence of calls. -/
def run (s : aesd_state) (ops : List Op) : aesd_state := ops.foldl step s

/-- A sequence of calls without a read. -/
def writes_only (ops : List Op) : Bool :=
  ops.all (fun o => match o with | Op.write _ _ => true | Op.read _ => false)

/-- What one run of the drain loop guarantees, from the loop state it starts
in (`s`, `off`, `buf`, `tr`, `it`) to its result `r`. -/
structure drain_post (s : aesd_state) (off : Nat) (buf : List (Option Nat))
    (tr : List Event) (it : Nat) (r : read_result) : Prop where
  trace_ext : ∃ tr1, r.trace = tr ++ tr1 ∧ lock_discipline false tr1 = some false ∧
    r.retval = ((off + ((emptied tr1).map Prod.snd).sum : Nat) : Int) ∧
    (∀ p ∈ emptied tr1, 1 ≤ p.2) ∧
    live_count r.state.aesd_device.cir_buf_ + (emptied tr1).length
      = live_count s.aesd_device.cir_buf_ ∧
    r.iterations ≤ it + (emptied tr1).length + 1
  lock_free : s.aesd_lock = false → r.state.aesd_lock = false
  bytes : (r.retval : Int) + (total_bytes r.state.aesd_device.cir_buf_ : Int)
    = (off : Int) + (total_bytes s.aesd_device.cir_buf_ : Int)
  same_open : r.state.aesd_device.is_open_ = s.aesd_device.is_open_
  same_in : r.state.aesd_device.cir_buf_.in_offs = s.aesd_device.cir_buf_.in_offs
  same_out : r.state.aesd_device.cir_buf_.out_offs = s.aesd_device.cir_buf_.out_offs
  same_full : r.state.aesd_device.cir_buf_.full = s.aesd_device.cir_buf_.full
  same_len : r.state.aesd_device.cir_buf_.entry.length = s.aesd_device.cir_buf_.entry.length
  slots : ∀ i, r.state.aesd_device.cir_buf_.entry.getD i empty_entry
      = s.aesd_device.cir_buf_.entry.getD i empty_entry ∨
    r.state.aesd_device.cir_buf_.entry.getD i empty_entry = empty_entry
  buf_ext : ∃ out, r.buf = buf ++ out

/-- Bookkeeping of the ring that every call keeps: `cap` slots; while the ring
is not full the head is slot 0, the tail is inside the ring and every slot from
the tail on is empty. -/
structure ring_inv (cap : Nat) (b : aesd_circular_buffer) : Prop where
  len : b.entry.length = cap
  not_full : b.full = false → b.out_offs = 0 ∧ b.in_offs < cap ∧
    ∀ i, b.in_offs ≤ i → (b.entry.getD i empty_entry).size = 0

/-- Bookkeeping kept by writes alone: besides `ring_inv`, the slots before the
tail are live while the ring is not full, and once it is full head and tail
coincide and every slot is live. -/
structure write_inv (cap : Nat) (b : aesd_circular_buffer) : Prop where
  base : ring_inv cap b
  not_full : b.full = false → ∀ i, i < b.in_offs → 0 < (b.entry.getD i empty_entry).size
  is_full : b.full = true → b.in_offs = b.out_offs ∧ b.in_offs < cap ∧
    ∀ i, i < cap → 0 < (b.entry.getD i empty_entry).size

/-! ## Lemmas -/

theorem find_entry_walk_some (entry : List aesd_buffer_entry) (out_offs : Nat) :
    ∀ (steps i off idx k : Nat),
      find_entry_walk entry out_offs steps i off = some (idx, k) →
      k < (entry.getD idx empty_entry).size := by
  intro steps
  induction steps with
  | zero => intro i off idx k h; simp [find_entry_walk] at h
  | succ n ih =>
    intro i off idx k h
    simp only [find_entry_walk] at h
    split at h
    · rename_i hlt
      simp only [Option.some.injEq, Prod.mk.injEq] at h
      obtain ⟨h1, h2⟩ := h
      subst h1; subst h2
      exact hlt
    · exact ih _ _ _ _ h

theorem countP_set_dead (l : List aesd_buffer_entry) :
    ∀ (i : Nat), 0 < (l.getD i empty_entry).size →
      (l.set i empty_entry).countP is_live + 1 = l.countP is_live := by
  induction l with
  | nil => intro i h; simp [empty_entry] at h
  | cons a t ih =>
    intro i h
    cases i with
    | zero =>
      simp only [List.getD_cons_zero] at h
      simp [List.set, List.countP_cons, is_live, empty_entry, h]
    | succ j =>
      simp only [List.getD_cons_succ] at h
      have := ih j h
      simp only [List.set, List.countP_cons]
      omega

theorem sum_set_dead (l : List aesd_buffer_entry) :
    ∀ (i : Nat), ((l.set i empty_entry).map (fun e => e.size)).sum
        + (l.getD i empty_entry).size = (l.map (fun e => e.size)).sum := by
  induction l with
  | nil => intro i; simp [empty_entry]
  | cons a t ih =>
    intro i
    cases i with
    | zero => simp [List.set, empty_entry]; omega
    | succ j =>
      have := ih j
      simp only [List.set, List.map_cons, List.sum_cons, List.getD_cons_succ]
      omega

theorem lock_discipline_append (tr1 tr2 : List Event) :
    ∀ (h h1 : Bool), lock_discipline h tr1 = some h1 →
      lock_discipline h (tr1 ++ tr2) = lock_discipline h1 tr2 := by
  induction tr1 with
  | nil => intro h h1 hd; simp [lock_discipline] at hd; simp [hd]
  | cons e t ih =>
    intro h h1 hd
    cases e <;> cases h <;> simp only [lock_discipline, List.cons_append] at hd ⊢ <;>
      first
        | exact ih _ _ hd
        | simp at hd

theorem emptied_iteration (off idx k n : Nat) (found : Option (Nat × Nat))
    (tr1 : List Event) :
    emptied ([Event.mutex_lock, Event.find_entry off found, Event.memcpy_out off idx k n,
      Event.kfree idx, Event.mutex_unlock] ++ tr1) = (idx, n) :: emptied tr1 := rfl

theorem getD_set_dead (l : List aesd_buffer_entry) (idx i : Nat) :
    (l.set idx empty_entry).getD i empty_entry = l.getD i empty_entry ∨
    (l.set idx empty_entry).getD i empty_entry = empty_entry := by
  simp only [List.getD_eq_getElem?_getD, List.getElem?_set]
  by_cases h : idx = i
  · right
    subst h
    by_cases h2 : idx < l.length <;> simp [h2]
  · left; simp [h]

theorem aesd_read_loop_spec :
    ∀ (fuel : Nat) (s : aesd_state) (count off : Nat) (buf : List (Option Nat))
      (tr : List Event) (it : Nat),
      live_count s.aesd_device.cir_buf_ < fuel →
      ∃ r, aesd_read_loop fuel s count off buf tr it = some r ∧
        drain_post s off buf tr it r := by
  intro fuel
  induction fuel with
  | zero => intro s count off buf tr it h; omega
  | succ n ih =>
    intro s count off buf tr it hfuel
    simp only [aesd_read_loop]
    by_cases hc : count > off
    · simp only [hc, if_true]
      cases hf : aesd_circular_buffer_find_entry_offset_for_fpos s.aesd_device.cir_buf_ off with
      | none =>
        refine ⟨_, rfl, ?_⟩
        refine ⟨⟨_, rfl, by simp [lock_discipline], by simp [emptied], by simp [emptied],
          by simp [emptied], by simp [emptied]⟩, by simp, by simp, rfl, rfl, rfl, rfl, rfl,
          fun i => Or.inl rfl, ⟨[], by simp⟩⟩
      | some p =>
        obtain ⟨idx, k⟩ := p
        have hk := find_entry_walk_some _ _ _ _ _ _ _ hf
        have hpos : 0 < (s.aesd_device.cir_buf_.entry.getD idx empty_entry).size := by omega
        have hcnt := countP_set_dead s.aesd_device.cir_buf_.entry idx hpos
        have hsum := sum_set_dead s.aesd_device.cir_buf_.entry idx
        simp only []
        obtain ⟨r, hr, hp⟩ := ih
          { aesd_device := { s.aesd_device with
              cir_buf_ := { s.aesd_device.cir_buf_ with
                entry := s.aesd_device.cir_buf_.entry.set idx empty_entry } },
            aesd_lock := false }
          count (off + (s.aesd_device.cir_buf_.entry.getD idx empty_entry).size)
          (buf ++ memcpy_src (s.aesd_device.cir_buf_.entry.getD idx empty_entry).buffptr k
            (s.aesd_device.cir_buf_.entry.getD idx empty_entry).size)
          (tr ++ [Event.mutex_lock, Event.find_entry off (some (idx, k)),
                  Event.memcpy_out off idx k
                    (s.aesd_device.cir_buf_.entry.getD idx empty_entry).size,
                  Event.kfree idx, Event.mutex_unlock])
          (it + 1)
          (by simp only [live_count] at hfuel ⊢; omega)
        refine ⟨r, hr, ?_⟩
        obtain ⟨⟨tr1, h1, h2, h3, h4, h5, h6⟩, hl, hb, ho, hi, hou, hfu, hle, hsl, ⟨out, hout⟩⟩ := hp
        simp only [live_count, total_bytes] at h5 hb hle hsl hi hou hfu ho ⊢
        refine ⟨⟨[Event.mutex_lock, Event.find_entry off (some (idx, k)),
                  Event.memcpy_out off idx k
                    (s.aesd_device.cir_buf_.entry.getD idx empty_entry).size,
                  Event.kfree idx, Event.mutex_unlock] ++ tr1,
            by rw [h1, List.append_assoc], ?_, ?_, ?_, ?_, ?_⟩, fun _ => hl rfl, ?_, ho, hi,
          hou, hfu, ?_, ?_,
          ⟨memcpy_src (s.aesd_device.cir_buf_.entry.getD idx empty_entry).buffptr k
            (s.aesd_device.cir_buf_.entry.getD idx empty_entry).size ++ out,
            by rw [hout, List.append_assoc]⟩⟩
        · simp [lock_discipline, h2]
        · rw [h3, emptied_iteration]
          simp only [List.map_cons, List.sum_cons]
          congr 1
          omega
        · intro p hp
          rw [emptied_iteration, List.mem_cons] at hp
          rcases hp with hp | hp
          · subst hp; exact hpos
          · exact h4 p hp
        · rw [emptied_iteration, List.length_cons]
          simp only [live_count]
          omega
        · rw [emptied_iteration, List.length_cons]
          omega
        · simp only [total_bytes]; omega
        · simpa using hle
        · intro i
          rcases hsl i with h | h
          · rw [h]; exact getD_set_dead _ _ _
          · exact Or.inr h
    · simp only [hc, if_false]
      refine ⟨_, rfl, ?_⟩
      refine ⟨⟨[], by simp, by simp [lock_discipline], by simp [emptied], by simp [emptied],
        by simp [emptied], by simp [emptied]⟩, fun h => h, by simp, rfl, rfl, rfl, rfl, rfl,
        fun i => Or.inl rfl, ⟨[], by simp⟩⟩

theorem find_entry_walk_first_live (entry : List aesd_buffer_entry) (out_offs : Nat) :
    ∀ (steps i j : Nat), i ≤ j → j < i + steps →
      (∀ j1, i ≤ j1 → j1 < j →
        (entry.getD ((out_offs + j1) % entry.length) empty_entry).size = 0) →
      0 < (entry.getD ((out_offs + j) % entry.length) empty_entry).size →
      find_entry_walk entry out_offs steps i 0 = some ((out_offs + j) % entry.length, 0) := by
  intro steps
  induction steps with
  | zero => intro i j h1 h2; omega
  | succ n ih =>
    intro i j h1 h2 hdead hlive
    simp only [find_entry_walk]
    by_cases hij : i = j
    · subst hij
      rw [if_pos hlive]
    · have hz := hdead i (Nat.le_refl i) (by omega)
      rw [hz]
      simp only [Nat.lt_irrefl, if_false, Nat.sub_zero]
      exact ih (i + 1) j (by omega) (by omega)
        (fun j1 ha hb => hdead j1 (by omega) hb) hlive

theorem memcpy_src_whole (blk : List Nat) (n : Nat) (h : n ≤ blk.length) :
    memcpy_src (some blk) 0 n = (blk.take n).map some := by
  apply List.ext_getElem?
  intro i
  simp only [memcpy_src, List.getElem?_map, Option.bind, Nat.zero_add, List.get?_eq_getElem?,
    List.getElem?_take]
  by_cases hi : i < n
  · have hb : i < blk.length := by omega
    simp [List.getElem?_range hi, hi, List.getElem?_eq_getElem hb]
  · simp [hi, List.getElem?_eq_none (l := List.range n) (by simpa using hi)]

theorem getD_set_ne (l : List aesd_buffer_entry) (i j : Nat) (a : aesd_buffer_entry)
    (h : i ≠ j) : (l.set i a).getD j empty_entry = l.getD j empty_entry := by
  simp [List.getD_eq_getElem?_getD, List.getElem?_set, h]

theorem getD_set_eq (l : List aesd_buffer_entry) (i : Nat) (a : aesd_buffer_entry)
    (h : i < l.length) : (l.set i a).getD i empty_entry = a := by
  simp [List.getD_eq_getElem?_getD, List.getElem?_set, h]

theorem count_live_le (l : List aesd_buffer_entry) :
    ∀ (k : Nat), (∀ i, k ≤ i → (l.getD i empty_entry).size = 0) →
      l.countP is_live ≤ k := by
  induction l with
  | nil => intro k _; simp
  | cons a t ih =>
    intro k hdead
    cases k with
    | zero =>
      have ha : a.size = 0 := by simpa using hdead 0 (Nat.le_refl 0)
      have ht := ih 0 (fun i hi => by simpa using hdead (i + 1) (Nat.zero_le _))
      simp only [List.countP_cons, is_live, ha]
      simpa [is_live] using ht
    | succ k1 =>
      have ht := ih k1 (fun i hi => by simpa using hdead (i + 1) (by omega))
      simp only [List.countP_cons]
      split <;> omega

theorem count_live_initial (l : List aesd_buffer_entry) :
    ∀ (k : Nat), k ≤ l.length →
      (∀ i, i < k → 0 < (l.getD i empty_entry).size) →
      (∀ i, k ≤ i → (l.getD i empty_entry).size = 0) →
      l.countP is_live = k := by
  induction l with
  | nil => intro k hk _ _; simp at hk; simp [hk]
  | cons a t ih =>
    intro k hk hlive hdead
    cases k with
    | zero => exact Nat.le_zero.mp (count_live_le _ 0 hdead)
    | succ k1 =>
      have ha : 0 < a.size := by simpa using hlive 0 (by omega)
      have ht := ih k1 (by simpa using hk)
        (fun i hi => by simpa using hlive (i + 1) (by omega))
        (fun i hi => by simpa using hdead (i + 1) (by omega))
      simp [List.countP_cons, is_live, ha]
      simpa [is_live] using ht

theorem getD_replicate_empty (cap i : Nat) :
    (List.replicate cap empty_entry).getD i empty_entry = empty_entry := by
  simp only [List.getD_eq_getElem?_getD, List.getElem?_replicate]
  split <;> rfl

theorem write_inv_init (cap : Nat) (hcap : 0 < cap) :
    write_inv cap (aesd_circular_buffer_init cap) := by
  refine ⟨⟨by simp [aesd_circular_buffer_init], fun _ => ⟨rfl, hcap, fun i _ => ?_⟩⟩,
    fun _ i hi => ?_, fun h => ?_⟩
  · simp [aesd_circular_buffer_init, getD_replicate_empty, empty_entry]
  · simp [aesd_circular_buffer_init] at hi
  · simp [aesd_circular_buffer_init] at h

theorem ring_inv_add_entry (cap : Nat) (b : aesd_circular_buffer)
    (e : aesd_buffer_entry) (h : ring_inv cap b) :
    ring_inv cap (aesd_circular_buffer_add_entry b e) := by
  obtain ⟨hlen, hnf⟩ := h
  unfold aesd_circular_buffer_add_entry
  cases hf : b.full with
  | true => exact ⟨by simp [hlen], fun h => by simp at h⟩
  | false =>
    obtain ⟨ho, hi, hdead⟩ := hnf hf
    refine ⟨by simp [hlen], fun h => ?_⟩
    simp only [Bool.false_eq_true, if_false, decide_eq_false_iff_not, hlen, ho] at h ⊢
    have hlt : b.in_offs + 1 < cap := by
      by_contra hc
      have : b.in_offs + 1 = cap := by omega
      rw [this, Nat.mod_self] at h
      exact h rfl
    rw [Nat.mod_eq_of_lt hlt]
    refine ⟨trivial, hlt, fun i hi2 => ?_⟩
    rw [getD_set_ne _ _ _ _ (by omega)]
    exact hdead i (by omega)

theorem write_inv_add_entry (cap : Nat) (hcap : 0 < cap) (b : aesd_circular_buffer)
    (e : aesd_buffer_entry) (he : 0 < e.size) (h : write_inv cap b) :
    write_inv cap (aesd_circular_buffer_add_entry b e) := by
  refine ⟨ring_inv_add_entry cap b e h.base, ?_, ?_⟩
  · obtain ⟨⟨hlen, hnf⟩, hlive, _⟩ := h
    unfold aesd_circular_buffer_add_entry
    cases hf : b.full with
    | true => intro h; simp at h
    | false =>
      obtain ⟨ho, hi, hdead⟩ := hnf hf
      intro h i hi2
      simp only [Bool.false_eq_true, if_false, decide_eq_false_iff_not, hlen, ho] at h hi2 ⊢
      have hlt : b.in_offs + 1 < cap := by
        by_contra hc
        have : b.in_offs + 1 = cap := by omega
        rw [this, Nat.mod_self] at h
        exact h rfl
      rw [Nat.mod_eq_of_lt hlt] at hi2
      by_cases hii : b.in_offs = i
      · subst hii
        rw [getD_set_eq _ _ _ (by omega)]
        exact he
      · rw [getD_set_ne _ _ _ _ hii]
        exact hlive hf i (by omega)
  · obtain ⟨⟨hlen, hnf⟩, hlive, hfull⟩ := h
    unfold aesd_circular_buffer_add_entry
    cases hf : b.full with
    | true =>
      obtain ⟨hio, hi, hall⟩ := hfull hf
      intro _
      simp only [if_true, hlen]
      refine ⟨by rw [hio], Nat.mod_lt _ hcap, fun i hi2 => ?_⟩
      by_cases hii : b.in_offs = i
      · subst hii
        rw [getD_set_eq _ _ _ (by simp; omega)]
        exact he
      · rw [getD_set_ne _ _ _ _ hii, getD_set_ne _ _ _ _ (by omega)]
        exact hall i hi2
    | false =>
      obtain ⟨ho, hi, hdead⟩ := hnf hf
      intro h
      simp only [Bool.false_eq_true, if_false, decide_eq_true_eq, hlen, ho] at h ⊢
      have heq : b.in_offs + 1 = cap := by
        by_contra hc
        have hlt : b.in_offs + 1 < cap := by omega
        rw [Nat.mod_eq_of_lt hlt] at h
        omega
      refine ⟨h, Nat.mod_lt _ hcap, fun i hi2 => ?_⟩
      by_cases hii : b.in_offs = i
      · subst hii
        rw [getD_set_eq _ _ _ (by omega)]
        exact he
      · rw [getD_set_ne _ _ _ _ hii]
        exact hlive hf i (by omega)

theorem ring_inv_step (cap : Nat) (s : aesd_state) (o : Op)
    (h : ring_inv cap s.aesd_device.cir_buf_) :
    ring_inv cap (step s o).aesd_device.cir_buf_ := by
  cases o with
  | write buf ok =>
    simp only [step, aesd_write]
    split
    · exact h
    · split
      · exact h
      · split
        · exact ring_inv_add_entry cap _ _ h
        · exact h
  | read count =>
    simp only [step]
    by_cases hopen : s.aesd_device.is_open_ = true
    · obtain ⟨r, hr, hp⟩ := aesd_read_loop_spec (s.aesd_device.cir_buf_.entry.length + 1) s
        count 0 [] [] 0 (Nat.lt_succ_of_le (List.countP_le_length _))
      simp only [aesd_read, hopen, Bool.not_true, Bool.false_eq_true, if_false, hr]
      obtain ⟨hlen, hnf⟩ := h
      refine ⟨by rw [hp.same_len, hlen], fun hf => ?_⟩
      rw [hp.same_full] at hf
      obtain ⟨ho, hi, hdead⟩ := hnf hf
      rw [hp.same_out, hp.same_in]
      refine ⟨ho, hi, fun i hi2 => ?_⟩
      rcases hp.slots i with h1 | h1
      · rw [h1]; exact hdead i hi2
      · rw [h1]; rfl
    · simp only [aesd_read, hopen, Bool.not_false, if_true]
      exact h

theorem write_inv_step (cap : Nat) (hcap : 0 < cap) (s : aesd_state) (buf : List Nat)
    (ok : Bool) (h : write_inv cap s.aesd_device.cir_buf_) :
    write_inv cap (step s (Op.write buf ok)).aesd_device.cir_buf_ := by
  simp only [step, aesd_write]
  split
  · exact h
  · split
    · exact h
    · rename_i hne
      split
      · exact write_inv_add_entry cap hcap _ _ (by show 0 < buf.length; omega) h
      · exact h

theorem ring_inv_run (cap : Nat) (ops : List Op) :
    ∀ (s : aesd_state), ring_inv cap s.aesd_device.cir_buf_ →
      ring_inv cap (run s ops).aesd_device.cir_buf_ := by
  induction ops with
  | nil => intro s h; exact h
  | cons o t ih => intro s h; exact ih (step s o) (ring_inv_step cap s o h)

theorem write_inv_run (cap : Nat) (hcap : 0 < cap) (ops : List Op) :
    ∀ (s : aesd_state), writes_only ops = true → write_inv cap s.aesd_device.cir_buf_ →
      write_inv cap (run s ops).aesd_device.cir_buf_ := by
  induction ops with
  | nil => intro s _ h; exact h
  | cons o t ih =>
    intro s hw h
    cases o with
    | write buf ok =>
      exact ih (step s (Op.write buf ok)) (by simpa [writes_only] using hw)
        (write_inv_step cap hcap s buf ok h)
    | read count => simp [writes_only] at hw

theorem ring_inv_full_of_count (cap : Nat) (b : aesd_circular_buffer) (h : ring_inv cap b)
    (hc : live_count b = cap) : b.full = true := by
  by_contra hf
  have hf2 : b.full = false := by simpa using hf
  obtain ⟨_, hi, hdead⟩ := h.not_full hf2
  have := count_live_le b.entry b.in_offs hdead
  simp only [live_count] at hc
  omega

theorem write_inv_full_iff (cap : Nat) (b : aesd_circular_buffer) (h : write_inv cap b) :
    b.full = true ↔ live_count b = cap := by
  refine ⟨fun hf => ?_, ring_inv_full_of_count cap b h.base⟩
  obtain ⟨_, _, hall⟩ := h.is_full hf
  have hlen := h.base.len
  simp only [live_count]
  refine count_live_initial b.entry cap (by omega) hall (fun i hi => ?_)
  have : b.entry.getD i empty_entry = empty_entry := by
    simp [List.getD_eq_getElem?_getD, List.getElem?_eq_none (show b.entry.length ≤ i by omega)]
  rw [this]; rfl

theorem step_read_same_full (s : aesd_state) (count : Nat) :
    (step s (Op.read count)).aesd_device.cir_buf_.full = s.aesd_device.cir_buf_.full ∧
    (step s (Op.read count)).aesd_device.cir_buf_.in_offs = s.aesd_device.cir_buf_.in_offs ∧
    (step s (Op.read count)).aesd_device.cir_buf_.out_offs
      = s.aesd_device.cir_buf_.out_offs := by
  simp only [step]
  by_cases hopen : s.aesd_device.is_open_ = true
  · obtain ⟨r, hr, hp⟩ := aesd_read_loop_spec (s.aesd_device.cir_buf_.entry.length + 1) s
      count 0 [] [] 0 (Nat.lt_succ_of_le (List.countP_le_length _))
    simp only [aesd_read, hopen, Bool.not_true, Bool.false_eq_true, if_false, hr]
    exact ⟨hp.same_full, hp.same_in, hp.same_out⟩
  · simp only [aesd_read, hopen, Bool.not_false, if_true]
    exact ⟨trivial, trivial, trivial⟩

/-! ## Properties of `aesd_read` and `aesd_write` -/

/-- C3. Over-delivery on a partial drain. The session is open; the oldest live
record of the ring is `A`: it sits `j` slots after the head, every slot before
it is empty, its length is `L` and its block holds at least `L` bytes. For every
`count` with `1 ≤ count < L`, `aesd_read` returns `L`, which is more than
`count`; the output is the `L` bytes of `A`; the slot of `A` is emptied and no
other slot, index or flag of the ring changes; the loop body runs once, so no
later record is delivered. -/
theorem aesd_read_over_delivery (s : aesd_state) (j L count fuel : Nat) (blk : List Nat)
    (hopen : s.aesd_device.is_open_ = true)
    (hj : j < s.aesd_device.cir_buf_.entry.length)
    (hbefore : ∀ j1, j1 < j →
      (s.aesd_device.cir_buf_.entry.getD
        ((s.aesd_device.cir_buf_.out_offs + j1) % s.aesd_device.cir_buf_.entry.length)
        empty_entry).size = 0)
    (hA : s.aesd_device.cir_buf_.entry.getD
        ((s.aesd_device.cir_buf_.out_offs + j) % s.aesd_device.cir_buf_.entry.length)
        empty_entry = { buffptr := some blk, size := L })
    (hblk : L ≤ blk.length) (hlo : 1 ≤ count) (hhi : count < L) :
    aesd_read (fuel + 2) s count = some
      { retval := (L : Int)
        buf := (blk.take L).map some
        state :=
          { aesd_device := { s.aesd_device with
              cir_buf_ := { s.aesd_device.cir_buf_ with
                entry := s.aesd_device.cir_buf_.entry.set
                  ((s.aesd_device.cir_buf_.out_offs + j) % s.aesd_device.cir_buf_.entry.length)
                  empty_entry } }
            aesd_lock := false }
        trace := [Event.mutex_lock,
          Event.find_entry 0 (some
            ((s.aesd_device.cir_buf_.out_offs + j) % s.aesd_device.cir_buf_.entry.length, 0)),
          Event.memcpy_out 0
            ((s.aesd_device.cir_buf_.out_offs + j) % s.aesd_device.cir_buf_.entry.length) 0 L,
          Event.kfree
            ((s.aesd_device.cir_buf_.out_offs + j) % s.aesd_device.cir_buf_.entry.length),
          Event.mutex_unlock]
        iterations := 1 } ∧
    (count : Int) < (L : Int) := by
  have hfind : aesd_circular_buffer_find_entry_offset_for_fpos s.aesd_device.cir_buf_ 0
      = some ((s.aesd_device.cir_buf_.out_offs + j) % s.aesd_device.cir_buf_.entry.length, 0) := by
    unfold aesd_circular_buffer_find_entry_offset_for_fpos
    apply find_entry_walk_first_live
    · exact Nat.zero_le j
    · omega
    · intro j1 _ h; exact hbefore j1 h
    · rw [hA]; show 0 < L; omega
  refine ⟨?_, by exact_mod_cast hhi⟩
  have hc : count > 0 := by omega
  have hc2 : ¬ count > L := by omega
  simp only [aesd_read, hopen, Bool.not_true, Bool.false_eq_true, if_false, aesd_read_loop,
    hc, if_true, hfind, hA, List.nil_append, memcpy_src_whole blk L hblk, Nat.zero_add, hc2,
    if_false]

/-- C3, at the example of the design document: `A` of 5 bytes and `B` of 7
bytes written to a fresh ring of 10 slots, then a read of 3 bytes. -/
theorem aesd_read_over_delivery_witness :
    (aesd_read 2
      (aesd_write (aesd_write (opened 10) [1, 2, 3, 4, 5] true).state
        [11, 12, 13, 14, 15, 16, 17] true).state 3).map
      (fun r => (r.retval, r.buf, r.state.aesd_device.cir_buf_.entry.take 3))
    = some (5, [some 1, some 2, some 3, some 4, some 5],
        [empty_entry, { buffptr := some [11, 12, 13, 14, 15, 16, 17, 0], size := 7 },
         empty_entry]) := by
  have h := (aesd_read_over_delivery
    (aesd_write (aesd_write (opened 10) [1, 2, 3, 4, 5] true).state
      [11, 12, 13, 14, 15, 16, 17] true).state 0 5 3 0 [1, 2, 3, 4, 5, 0]
    (by decide) (by decide) (by intro j1 h; omega) (by decide) (by decide) (by decide)
    (by decide)).1
  rw [h]
  decide

/-- C4. Successful write. The session is open, the payload `buf` has
`count = buf.length ≥ 1` bytes and `kmalloc` returns a block. Then `aesd_write`
returns `count`, its trace holds exactly one append, of a record `e` with
`e.size = count` whose block starts with the `count` bytes of the payload, and
the ring after the call is the ring before it with `e` appended. -/
theorem aesd_write_success (s : aesd_state) (buf : List Nat)
    (hopen : s.aesd_device.is_open_ = true) (hcount : 1 ≤ buf.length) :
    (aesd_write s buf true).retval = some (buf.length : Int) ∧
    ∃ e, appended (aesd_write s buf true).trace = [e] ∧
      e.size = buf.length ∧
      e.buffptr.map (List.take buf.length) = some buf ∧
      (aesd_write s buf true).state.aesd_device.cir_buf_
        = aesd_circular_buffer_add_entry s.aesd_device.cir_buf_ e := by
  have hne : buf.length ≠ 0 := by omega
  refine ⟨by simp [aesd_write, hopen, hne], ⟨{ buffptr := some (buf ++ [0]), size := buf.length }, ?_⟩⟩
  simp [aesd_write, hopen, hne, appended]

/-- C4 at a payload of three bytes written to a fresh open ring of 10 slots. -/
theorem aesd_write_success_witness :
    (aesd_write (opened 10) [104, 105, 10] true).retval = some 3 :=
  (aesd_write_success (opened 10) [104, 105, 10] (by decide) (by decide)).1

/-- C5. Zero-length write. The session is open and `count = buf.length = 0`.
Whatever `kmalloc` would do, `aesd_write` returns 0, its trace is empty (no
`mutex_lock`, no `kmalloc`, no append) and the globals, the ring with all its
slots, `in_offs`, `out_offs` and `full` among them, are those before the call. -/
theorem aesd_write_zero_length (s : aesd_state) (buf : List Nat) (kmalloc_ok : Bool)
    (hopen : s.aesd_device.is_open_ = true) (hcount : buf.length = 0) :
    aesd_write s buf kmalloc_ok = { retval := some 0, state := s, trace := [] } := by
  simp [aesd_write, hopen, hcount]

/-- C5 on a ring that already holds a record. -/
theorem aesd_write_zero_length_witness :
    aesd_write (aesd_write (opened 10) [7, 8] true).state [] true
      = { retval := some 0, state := (aesd_write (opened 10) [7, 8] true).state, trace := [] } :=
  aesd_write_zero_length (aesd_write (opened 10) [7, 8] true).state [] true (by decide)
    (by decide)

/-- C9. Lock discipline of one call entered with the mutex free. With fuel for
one loop test per live record plus one, `aesd_read` returns; its trace keeps the
discipline (lock and unlock alternate, starting with lock, and `find_entry`,
`memcpy_out` and `kfree` occur only between a lock and its unlock) and ends with
the mutex free, also when the loop leaves through the end-of-content `break`.
The same holds for `aesd_write` when `kmalloc` succeeds (its ring access is the
append). -/
theorem aesd_lock_discipline (s : aesd_state) (count fuel : Nat) (buf : List Nat)
    (hfree : s.aesd_lock = false)
    (hfuel : live_count s.aesd_device.cir_buf_ + 1 ≤ fuel) :
    (∃ r, aesd_read fuel s count = some r ∧
      lock_discipline s.aesd_lock r.trace = some false ∧ r.state.aesd_lock = false) ∧
    lock_discipline s.aesd_lock (aesd_write s buf true).trace = some false ∧
    (aesd_write s buf true).state.aesd_lock = false := by
  refine ⟨?_, ?_, ?_⟩
  · by_cases hopen : s.aesd_device.is_open_ = true
    · obtain ⟨r, hr, hp⟩ := aesd_read_loop_spec fuel s count 0 [] [] 0 (by omega)
      refine ⟨r, by simp [aesd_read, hopen, hr], ?_, hp.lock_free hfree⟩
      obtain ⟨tr1, h1, h2, _⟩ := hp.trace_ext
      rw [h1, hfree]
      simpa using h2
    · refine ⟨_, by simp [aesd_read, hopen]; rfl, ?_, ?_⟩
      · simp [lock_discipline, hfree]
      · exact hfree
  · by_cases hopen : s.aesd_device.is_open_ = true <;>
      by_cases hz : buf.length = 0 <;>
      simp [aesd_write, hopen, hz, lock_discipline, hfree]
  · by_cases hopen : s.aesd_device.is_open_ = true <;>
      by_cases hz : buf.length = 0 <;>
      simp [aesd_write, hopen, hz, hfree]

/-- C9 on a ring of two records drained until the end-of-content `break`. -/
theorem aesd_lock_discipline_witness :
    (∃ r, aesd_read 3 (aesd_write (aesd_write (opened 10) [1] true).state [2, 3] true).state 9
        = some r ∧
      lock_discipline
        (aesd_write (aesd_write (opened 10) [1] true).state [2, 3] true).state.aesd_lock r.trace
        = some false ∧ r.state.aesd_lock = false) ∧
    lock_discipline
      (aesd_write (aesd_write (opened 10) [1] true).state [2, 3] true).state.aesd_lock
      (aesd_write (aesd_write (aesd_write (opened 10) [1] true).state [2, 3] true).state
        [4] true).trace = some false ∧
    (aesd_write (aesd_write (aesd_write (opened 10) [1] true).state [2, 3] true).state
        [4] true).state.aesd_lock = false :=
  aesd_lock_discipline (aesd_write (aesd_write (opened 10) [1] true).state [2, 3] true).state
    9 3 [4] (by decide) (by decide)

/-- C10. The drain loop terminates. For every state of the globals and every
`count`, with `m` the number of live records on entry (`m ≤ CAPACITY`) and any
fuel of at least `m + 1` loop tests, `aesd_read` returns and its loop body has
run at most `m + 1` times. When the session is open: every record the call
emptied had length at least 1, the number of live records went down by the
number of records emptied, at most one run of the body emptied nothing, and
the value returned is the sum of the lengths of the records emptied, which is
also the number of bytes by which the content of the ring went down. -/
theorem aesd_read_terminates (s : aesd_state) (count fuel : Nat)
    (hfuel : live_count s.aesd_device.cir_buf_ + 1 ≤ fuel) :
    live_count s.aesd_device.cir_buf_ ≤ s.aesd_device.cir_buf_.entry.length ∧
    ∃ r, aesd_read fuel s count = some r ∧
      r.iterations ≤ live_count s.aesd_device.cir_buf_ + 1 ∧
      (s.aesd_device.is_open_ = true →
        (∀ p ∈ emptied r.trace, 1 ≤ p.2) ∧
        live_count r.state.aesd_device.cir_buf_ + (emptied r.trace).length
          = live_count s.aesd_device.cir_buf_ ∧
        r.iterations ≤ (emptied r.trace).length + 1 ∧
        r.retval = ((((emptied r.trace).map Prod.snd).sum : Nat) : Int) ∧
        r.retval + (total_bytes r.state.aesd_device.cir_buf_ : Int)
          = (total_bytes s.aesd_device.cir_buf_ : Int)) := by
  refine ⟨List.countP_le_length _, ?_⟩
  by_cases hopen : s.aesd_device.is_open_ = true
  · obtain ⟨r, hr, hp⟩ := aesd_read_loop_spec fuel s count 0 [] [] 0 (by omega)
    obtain ⟨tr1, h1, _, h3, h4, h5, h6⟩ := hp.trace_ext
    have htr : r.trace = tr1 := by simpa using h1
    have hb := hp.bytes
    refine ⟨r, by simp [aesd_read, hopen, hr], ?_, fun _ => ?_⟩
    · omega
    · rw [htr]
      refine ⟨h4, h5, by omega, by simpa using h3, by simpa using hb⟩
  · refine ⟨_, by simp [aesd_read, hopen]; rfl, by simp, fun h => absurd h hopen⟩

/-- C10 on a ring of two records (5 and 7 bytes) and a read of 12 bytes. -/
theorem aesd_read_terminates_witness :
    ∃ r, aesd_read 3
        (aesd_write (aesd_write (opened 10) [1, 2, 3, 4, 5] true).state
          [11, 12, 13, 14, 15, 16, 17] true).state 12 = some r ∧
      r.iterations ≤ 3 :=
  (aesd_read_terminates
    (aesd_write (aesd_write (opened 10) [1, 2, 3, 4, 5] true).state
      [11, 12, 13, 14, 15, 16, 17] true).state 12 3 (by decide)).2.imp
    (fun _ h => ⟨h.1, h.2.1⟩)

/-- C7, as the code has it. From the fresh open ring of `cap ≥ 1` slots, after
any sequence of `aesd_write` and `aesd_read` calls: the ring holds at most `cap`
live records, and if it holds exactly `cap` then `full` is true. After a
sequence of writes alone, `full` is true if and only if the ring holds exactly
`cap` live records. A read changes neither `full` nor the head and tail
indices, whatever it empties. -/
theorem full_flag_invariant (cap : Nat) (hcap : 0 < cap) (ops : List Op) :
    live_count (run (opened cap) ops).aesd_device.cir_buf_ ≤ cap ∧
    (live_count (run (opened cap) ops).aesd_device.cir_buf_ = cap →
      (run (opened cap) ops).aesd_device.cir_buf_.full = true) ∧
    (writes_only ops = true →
      ((run (opened cap) ops).aesd_device.cir_buf_.full = true ↔
        live_count (run (opened cap) ops).aesd_device.cir_buf_ = cap)) ∧
    (∀ count,
      (step (run (opened cap) ops) (Op.read count)).aesd_device.cir_buf_.full
        = (run (opened cap) ops).aesd_device.cir_buf_.full ∧
      (step (run (opened cap) ops) (Op.read count)).aesd_device.cir_buf_.in_offs
        = (run (opened cap) ops).aesd_device.cir_buf_.in_offs ∧
      (step (run (opened cap) ops) (Op.read count)).aesd_device.cir_buf_.out_offs
        = (run (opened cap) ops).aesd_device.cir_buf_.out_offs) := by
  have h0 : write_inv cap (opened cap).aesd_device.cir_buf_ := write_inv_init cap hcap
  have hr := ring_inv_run cap ops (opened cap) h0.base
  refine ⟨?_, ring_inv_full_of_count cap _ hr, fun hw => ?_, fun count => ?_⟩
  · have := List.countP_le_length is_live
      (l := (run (opened cap) ops).aesd_device.cir_buf_.entry)
    rw [hr.len] at this
    exact this
  · exact write_inv_full_iff cap _ (write_inv_run cap hcap ops (opened cap) hw h0)
  · exact step_read_same_full _ count

/-- C7 at a ring of 2 slots: two writes fill it, and `full` stays true through
the read that follows. -/
theorem full_flag_invariant_witness :
    (run (opened 2) [Op.write [1] true, Op.write [2] true]).aesd_device.cir_buf_.full = true ∧
    (step (run (opened 2) [Op.write [1] true, Op.write [2] true])
      (Op.read 1)).aesd_device.cir_buf_.full = true :=
  have h := full_flag_invariant 2 (by decide) [Op.write [1] true, Op.write [2] true]
  ⟨(h.2.2.1 (by decide)).2 (by decide), (h.2.2.2 1).1.trans ((h.2.2.1 (by decide)).2 (by decide))⟩

/-- C7 as stated fails: on a ring of 10 slots, ten one-byte writes followed by
one read of one byte leave `full` true while the ring holds 9 live records. -/
theorem full_flag_after_read_counterexample :
    ¬ ((run (opened 10)
          [Op.write [1] true, Op.write [2] true, Op.write [3] true, Op.write [4] true,
           Op.write [5] true, Op.write [6] true, Op.write [7] true, Op.write [8] true,
           Op.write [9] true, Op.write [10] true, Op.read 1]).aesd_device.cir_buf_.full = true ↔
        live_count (run (opened 10)
          [Op.write [1] true, Op.write [2] true, Op.write [3] true, Op.write [4] true,
           Op.write [5] true, Op.write [6] true, Op.write [7] true, Op.write [8] true,
           Op.write [9] true, Op.write [10] true, Op.read 1]).aesd_device.cir_buf_ = 10) := by
  decide

/-- C1 at three payloads of two bytes, `ab`, `cd`, `ef`, on a fresh open ring
of 10 slots, read with `count = 6`: `aesd_read` returns 4, not 6; the output is
`abef`, not `abcdef`. After `ab` is emptied the loop asks for logical offset 2
of what is left, `cd` followed by `ef`, which is byte 0 of `ef`. -/
theorem aesd_read_round_trip_skips_record :
    (aesd_read 4
      (run (opened 10) [Op.write [97, 98] true, Op.write [99, 100] true,
        Op.write [101, 102] true]) 6).map (fun r => (r.retval, r.buf))
    = some (4, [some 97, some 98, some 101, some 102]) := by
  decide

/-- C2 at the same three payloads: after the read with `count = 6` the ring
still holds one live record, `cd` in slot 1, and a second read with the same
`count` returns its 2 bytes. -/
theorem aesd_read_full_drain_leaves_record :
    ((aesd_read 4
      (run (opened 10) [Op.write [97, 98] true, Op.write [99, 100] true,
        Op.write [101, 102] true]) 6).bind
      (fun r1 => (aesd_read 4 r1.state 6).map
        (fun r2 => (live_count r1.state.aesd_device.cir_buf_,
          r1.state.aesd_device.cir_buf_.entry.getD 1 empty_entry, r2.retval, r2.buf))))
    = some (1, { buffptr := some [99, 100, 0], size := 2 }, 2, [some 99, some 100]) := by
  decide

/-- C6 at a one-byte write whose `kmalloc` returns NULL: the call does not
return a value, the mutex is held at the end, the trace has no `mutex_unlock`;
the ring is as before. -/
theorem aesd_write_kmalloc_null :
    aesd_write (opened 10) [65] false
      = { retval := none
          state := { opened 10 with aesd_lock := true }
          trace := [Event.mutex_lock, Event.kmalloc 2 false] } := by
  decide

/-- C8 at records of 5 and 7 bytes drained by one read of 12 bytes: the second
run of the loop body resolves logical offset 5 to slot 1 at offset 5 inside the
record and copies 7 bytes from there, the range [5, 12) of a block of 8 bytes;
the last four bytes of the output come from outside the block. -/
theorem aesd_read_copies_past_record :
    (aesd_read 3
      (run (opened 10) [Op.write [1, 2, 3, 4, 5] true,
        Op.write [11, 12, 13, 14, 15, 16, 17] true]) 12).map
      (fun r => (r.retval, r.trace, r.buf))
    = some (12,
        [Event.mutex_lock, Event.find_entry 0 (some (0, 0)), Event.memcpy_out 0 0 0 5,
         Event.kfree 0, Event.mutex_unlock,
         Event.mutex_lock, Event.find_entry 5 (some (1, 5)), Event.memcpy_out 5 1 5 7,
         Event.kfree 1, Event.mutex_unlock],
        [some 1, some 2, some 3, some 4, some 5, some 16, some 17, some 0,
         none, none, none, none]) := by
  decide

end Aesd
